import Mathlib

/-!
Verification of the media-catalogue thumbnail and collection-tree engine.

Every definition below is a shallow embedding of a function of the Python
sources (mediacatalogue/thumbnails.py, image.py, window.py, categories.py);
the theorems settle the specification's claims about them.
-/

set_option maxHeartbeats 1000000

/-! ## Tag-filter engine (thumbnails.py, ThumbnailItemFilterProxyModel) -/

/-- A Python scalar value as it occurs in tag maps and filter values: a
string, a boolean (True is the presence-only flag of SetFilterDialog), or
None (the default of `tags.get(key, None)`). -/
inductive PyVal where
  | vStr (s : String)
  | vBool (b : Bool)
  | vNone
deriving DecidableEq, Repr

/-- A tag or filter value before normalisation: either a bare scalar or a
list of scalars, matching the `isinstance(v, (list, tuple, set))` checks in
filterAcceptsRow. -/
inductive PyValue where
  | scalar (v : PyVal)
  | listOf (vs : List PyVal)
deriving DecidableEq, Repr

/-- Normalisation performed by filterAcceptsRow: a bare scalar is wrapped
into a one-element list, a list is kept. -/
def normValues : PyValue → List PyVal
  | .scalar v => [v]
  | .listOf vs => vs

/-- Python `x in values` over the embedded value type (equality is Python
`==` restricted to str/bool/None, which never identifies values of
different kinds). -/
def pyMem (x : PyVal) (l : List PyVal) : Bool :=
  l.any (fun y => decide (y = x))

/-- Python `tags.get(key, None)` over an association-list tag map. -/
def pyGet (tags : List (String × PyValue)) (key : String) : PyValue :=
  match tags.find? (fun kv => decide (kv.1 = key)) with
  | some kv => kv.2
  | none => .scalar .vNone

/-- The proxy model's filter_mode, `'all'` or `'any'`. -/
inductive FilterMode where
  | all
  | any
deriving DecidableEq, Repr

/-- Shallow embedding of ThumbnailItemFilterProxyModel.filterAcceptsRow
(thumbnails.py lines 175-195): empty active-filter dict accepts everything;
otherwise each (key, filter_values) pair is checked against the candidate's
value list for the key (absent key yields [None]); in mode 'all' the
per-predicate check is `all(x in tag_values for x in filter_values)`, in
mode 'any' it is `any(...)`; the per-predicate results are combined with
all/any according to the mode. -/
def filterAcceptsRow (activeFilters : List (String × PyValue))
    (mode : FilterMode) (tags : List (String × PyValue)) : Bool :=
  if activeFilters.isEmpty then
    true
  else
    let matchResults := activeFilters.map (fun kv =>
      let filterValues := normValues kv.2
      let tagValues := normValues (pyGet tags kv.1)
      match mode with
      | .all => filterValues.all (fun x => pyMem x tagValues)
      | .any => filterValues.any (fun x => pyMem x tagValues))
    match mode with
    | .all => matchResults.all id
    | .any => matchResults.any id

/-- Modelled from the claim's words (spec 4.5), for comparison with the
code: a predicate is satisfied exactly when the intersection of the
accepted values and the candidate's value set for the key is non-empty,
except the presence-only marker (the singleton [True]), which is satisfied
whenever the key exists in the candidate regardless of its value. -/
def predicateSatisfiedSpec (tags : List (String × PyValue)) (key : String)
    (accepted : PyValue) : Bool :=
  if normValues accepted = [PyVal.vBool true] then
    (tags.find? (fun kv => decide (kv.1 = key))).isSome
  else
    (normValues accepted).any (fun x => pyMem x (normValues (pyGet tags key)))

/-- Modelled from the claim's words (spec 4.5), for comparison with the
code: per-predicate satisfaction as in predicateSatisfiedSpec, combined
with AND for mode ALL and OR for mode ANY; the empty filter set accepts. -/
def filterAcceptsSpec (activeFilters : List (String × PyValue))
    (mode : FilterMode) (tags : List (String × PyValue)) : Bool :=
  if activeFilters.isEmpty then
    true
  else
    match mode with
    | .all => activeFilters.all (fun kv => predicateSatisfiedSpec tags kv.1 kv.2)
    | .any => activeFilters.any (fun kv => predicateSatisfiedSpec tags kv.1 kv.2)

/-! ## Decoder scaling (image.py, ImageLoader.load_regular_image and
_on_regular_ready) -/

/-- Qt's QSize::scaled with Qt.KeepAspectRatio, as implemented in Qt
(qsize.cpp): if either own dimension is 0 the target is returned; otherwise
rw = s.height * width / height (integer division) and the result is
(rw, s.height) when rw fits in the target width, else
(s.width, s.width * height / width).  This is the size QImageReader decodes
at after setScaledSize, and the size produced by QImage.scaled. -/
def qsizeScaled (w h sw sh : Nat) : Nat × Nat :=
  if w = 0 ∨ h = 0 then (sw, sh)
  else
    let rw := sh * w / h
    if rw ≤ sw then (rw, sh) else (sw, sw * h / w)

/-- Decoded image size of ImageLoader.load_regular_image (image.py lines
106-113): when target_size is null — QSize(0,0), the constructor default —
the reader decodes at native size, otherwise at the source size scaled to
the target with KeepAspectRatio. -/
def loadRegularImageSize (srcW srcH tgtW tgtH : Nat) : Nat × Nat :=
  if tgtW = 0 ∧ tgtH = 0 then (srcW, srcH)
  else qsizeScaled srcW srcH tgtW tgtH

/-- Image size after ImageLoader._on_regular_ready (image.py lines 164-172):
the delivered image is rescaled to target_size with KeepAspectRatio unless
the target is null or the image is null (a null QImage has size 0 x 0). -/
def onRegularReadySize (imgW imgH tgtW tgtH : Nat) : Nat × Nat :=
  if (tgtW = 0 ∧ tgtH = 0) ∨ (imgW = 0 ∧ imgH = 0) then (imgW, imgH)
  else qsizeScaled imgW imgH tgtW tgtH

/-! ## HDR decode failure path (image.py, hdr_to_qimage and _on_hdr_ready) -/

/-- QImage formats selected by hdr_to_qimage. -/
inductive QImageFmt where
  | rgb888
  | rgba8888
deriving DecidableEq, Repr

/-- Channel dispatch of ImageLoader.hdr_to_qimage (image.py lines 115-125):
3 channels select RGB888, 4 select RGBA8888, anything else raises
ValueError('Unknown channels') — embedded as Except.error (the clipping and
8-bit conversion of the pixel data do not affect the dispatch). -/
def hdrToQImage (channels : Nat) : Except String QImageFmt :=
  if channels = 3 then .ok .rgb888
  else if channels = 4 then .ok .rgba8888
  else .error "Unknown channels"

/-- The held image after a completion, or the escaped exception.  Embeds
ImageLoader._on_hdr_ready (image.py lines 174-178): the slot calls
hdr_to_qimage with no exception handler, so a ValueError raised there
propagates out of the completion handler; on success self.image is
replaced. -/
def onHdrReady (channels : Nat) : Except String (Option QImageFmt) :=
  match hdrToQImage channels with
  | .ok f => .ok (some f)
  | .error e => .error e

/-! ## Format classification and the worker pool (image.py, FileObject and
ImageLoader.run / load_async) -/

/-- The MIME types routed to OpenImageIO (image.py, hdr_mimes). -/
def hdrMimes : List String := ["image/vnd.radiance", "image/x-exr"]

/-- A file identity reduced to what run/load_async inspect: its MIME type
(FileObject.file_mime). -/
structure FileObj where
  mime : String
deriving DecidableEq, Repr

/-- FileObject.is_image (image.py lines 53-55): the MIME type is in the
platform-supported set or in the HDR set.  The supported set is a runtime
parameter (it comes from QImageReader.supportedImageFormats). -/
def FileObj.isImageFile (supported : List String) (f : FileObj) : Bool :=
  supported.contains f.mime || hdrMimes.contains f.mime

/-- Error taxonomy of spec section 7.  The code never constructs these; the
constructor backs the claim's expected outcome so that the claim can be
compared with what the code does. -/
inductive DecodeErr where
  | unsupportedFormat
  | decodeFailure
  | unsupportedChannelLayout
deriving DecidableEq, Repr

/-- What one call of ImageLoader.run does, by control path.  `.failed` is
never produced by the code (see DecodeErr). -/
inductive RunOutcome where
  | noOp
  | hdrLoaded
  | hdrUnavailableWarn
  | regularLoaded
  | failed (e : DecodeErr)
deriving DecidableEq, Repr

/-- ImageLoader.run (image.py lines 80-91): a non-image returns silently;
an HDR MIME is decoded with OpenImageIO when available (else only a warning
is printed); anything else goes through the regular reader. -/
def imageLoaderRun (supported : List String) (oiioAvailable : Bool)
    (f : FileObj) : RunOutcome :=
  if ¬ f.isImageFile supported then .noOp
  else if hdrMimes.contains f.mime then
    if oiioAvailable then .hdrLoaded else .hdrUnavailableWarn
  else .regularLoaded

/-- Whether ImageLoader.load_async (image.py lines 127-131) submits a task
to the worker pool: it returns before executor.submit unless the file is an
image. -/
def loadAsyncSubmits (supported : List String) (f : FileObj) : Bool :=
  f.isImageFile supported

/-! ## Bulk-add load scheduling (thumbnails.py, ThumbnailsWidget) -/

/-- State of a ThumbnailsWidget's sequential loader.  Items are identified
by creation index (object identity); `items` records (id, path) in creation
order, `pending` is _pending_items as a list of ids, `isLoading` is
_is_loading, `timers` counts queued QTimer.singleShot(0, _load_next_item)
callbacks, and `loadOrder` records the ids whose load() has run, in
execution order. -/
structure ThumbState where
  pending : List Nat
  isLoading : Bool
  timers : Nat
  loadOrder : List Nat
  items : List (Nat × String)
  nextId : Nat
deriving DecidableEq, Repr

/-- ThumbnailsWidget._load_next_item (thumbnails.py lines 569-575): with an
empty pending queue, clear _is_loading and return; otherwise pop the head,
run its load() synchronously (recorded in loadOrder) and queue one
singleShot callback for the next step. -/
def loadNextItem (s : ThumbState) : ThumbState :=
  match s.pending with
  | [] => { s with isLoading := false }
  | i :: rest =>
      { s with pending := rest, loadOrder := s.loadOrder ++ [i],
               timers := s.timers + 1 }

/-- ThumbnailsWidget.add_collection_item (thumbnails.py lines 554-567):
create a fresh ThumbnailItem (a new id even for a repeated path), append it
to the model and to _pending_items, and if no load cycle is running set
_is_loading and start one synchronously. -/
def addCollectionItem (p : String) (s : ThumbState) : ThumbState :=
  let s1 : ThumbState :=
    { s with items := s.items ++ [(s.nextId, p)],
             pending := s.pending ++ [s.nextId],
             nextId := s.nextId + 1 }
  if s1.isLoading then s1 else loadNextItem { s1 with isLoading := true }

/-- An event of the interactive thread: an add_collection_item call, or the
event loop delivering one queued singleShot callback (a timer event with no
queued callback is a no-op). -/
inductive UiEvent where
  | add (p : String)
  | timer
deriving DecidableEq, Repr

def uiStep (s : ThumbState) : UiEvent → ThumbState
  | .add p => addCollectionItem p s
  | .timer => if s.timers = 0 then s else loadNextItem { s with timers := s.timers - 1 }

/-- The widget's initial state: empty model, `_pending_items = []`,
`_is_loading = False`. -/
def initialThumb : ThumbState :=
  { pending := [], isLoading := false, timers := 0, loadOrder := [],
    items := [], nextId := 0 }

def runEvents (evs : List UiEvent) : ThumbState :=
  evs.foldl uiStep initialThumb

/-- The invariant of the sequential loader: loads happen in submission
order with the pending queue holding exactly the not-yet-loaded suffix;
when a cycle is running exactly one singleShot callback is queued, and when
none is the queue is empty; item ids are creation indices. -/
def ThumbInv (s : ThumbState) : Prop :=
  s.loadOrder ++ s.pending = List.range s.nextId
  ∧ ((s.isLoading = true ∧ s.timers = 1)
      ∨ (s.isLoading = false ∧ s.timers = 0 ∧ s.pending = []))
  ∧ s.items.map Prod.fst = List.range s.nextId

/-- The path a given item id was created with (lookup in the model's
creation log). -/
def pathOf (items : List (Nat × String)) (i : Nat) : Option String :=
  (items.find? (fun x => x.1 == i)).map Prod.snd

/-- How many load() runs were performed for items bearing a given path. -/
def decodeInvocations (s : ThumbState) (p : String) : Nat :=
  (s.loadOrder.filter (fun i => pathOf s.items i == some p)).length

/-! ## Collection tree (window.py: CollectionItem, build_tree_items,
ContextWidget.on_item_expanded) -/

/-- A collection-tree node (window.py CollectionItem).  `oid` models Python
object identity: two nodes are the same object iff their oids are equal.
`parentOid` is the parent back-reference, `name` the backing collection
identity used by reconciliation, `checked` the check state (Qt.Unchecked is
false).  Source fields irrelevant to the claims (checkable, expandable, the
kept data reference) are omitted. -/
inductive TNode : Type where
  | mk (oid : Nat) (name : String) (checked : Bool) (parentOid : Option Nat)
      (children : List TNode)

def TNode.oid : TNode → Nat
  | .mk o _ _ _ _ => o

def TNode.name : TNode → String
  | .mk _ nm _ _ _ => nm

def TNode.checked : TNode → Bool
  | .mk _ _ c _ _ => c

def TNode.parentOid : TNode → Option Nat
  | .mk _ _ _ p _ => p

def TNode.children : TNode → List TNode
  | .mk _ _ _ _ ch => ch

/-- Python `child.parent = self` (only the top-level field changes). -/
def TNode.setParentOid : TNode → Nat → TNode
  | .mk o nm c _ ch, p => .mk o nm c (some p) ch

/-- Replacement of the children list (the in-place list mutations of
on_item_expanded seen as a whole). -/
def TNode.withChildren : TNode → List TNode → TNode
  | .mk o nm c p _, ch => .mk o nm c p ch

/-- CollectionItem.add_child (window.py lines 27-29): set the child's
parent back-reference to self, then append the child to self.children. -/
def TNode.add_child (self child : TNode) : TNode :=
  self.withChildren (self.children ++ [child.setParentOid self.oid])

/-- The structural-change notifications emitted through the Qt model:
beginRemoveRows/endRemoveRows and beginInsertRows/endInsertRows ranges. -/
inductive Notif where
  | removeRows (first last : Nat)
  | insertRows (first last : Nat)
deriving DecidableEq, Repr

/-- Python `row = item.children.index(child); item.children.pop(row)` for a
child identified by object identity: drop the first element with the given
oid and report its index (the identity is present when the caller took it
from the list). -/
def removeOne : List TNode → Nat → List TNode × Nat
  | [], _ => ([], 0)
  | c :: rest, o =>
      if c.oid = o then (rest, 0)
      else
        let r := removeOne rest o
        (c :: r.1, r.2 + 1)

/-- One iteration of the removal loop: look up the child's current row,
pop it, and emit one single-row remove notification. -/
def removeStep (acc : List TNode × List Notif) (r : TNode) : List TNode × List Notif :=
  let x := removeOne acc.1 r.oid
  (x.1, acc.2 ++ [Notif.removeRows x.2 x.2])

/-- The removal loop of on_item_expanded (window.py lines 197-202): for
each child of to_remove, in the order iterated, look up its current row,
emit one single-row remove notification and pop it. -/
def removeLoop (cs : List TNode) (rem : List TNode) : List TNode × List Notif :=
  rem.foldl removeStep (cs, [])

/-- The new-children loop of on_item_expanded (window.py lines 205-209):
`CollectionItem(data=child_data, parent=item)` for each fresh name, in
fresh-data order; a fresh node is unchecked, childless, and already carries
the parent back-reference.  Fresh object identities are drawn from `k`
upward. -/
def mkNewChildren : List String → Nat → Nat → List TNode
  | [], _, _ => []
  | nm :: rest, p, k => TNode.mk k nm false (some p) [] :: mkNewChildren rest p (k + 1)

/-- One reconciliation pass, ContextWidget.on_item_expanded (window.py
lines 182-217) after the loader returned `childrenData` (the fresh backing
identities, `or []` applied): existing children whose name is not in the
fresh data are popped one by one in reversed order, each with its own
single-row remove notification; names not among the existing children's
names (taken before removal) become new nodes, appended through add_child
under one insert-range notification. -/
def onItemExpanded (item : TNode) (childrenData : List String) (k : Nat) :
    TNode × List Notif :=
  let toRemove := item.children.filter (fun c => !(childrenData.contains c.name))
  let removed := removeLoop item.children toRemove.reverse
  let item1 := item.withChildren removed.1
  let newChildren := mkNewChildren
    (childrenData.filter (fun nm => !((item.children.map TNode.name).contains nm)))
    item.oid k
  let insertNotifs :=
    if newChildren.isEmpty then ([] : List Notif)
    else [Notif.insertRows removed.1.length (removed.1.length + newChildren.length - 1)]
  (newChildren.foldl TNode.add_child item1, removed.2 ++ insertNotifs)

/-- The category data handed to build_tree_items: a CollectionItem data
record reduced to its name and sub-collections. -/
inductive DataTree : Type where
  | mk (name : String) (collections : List DataTree)

/-- build_tree_items (window.py lines 323-337): for each data record make a
node (parent None, unchecked), recursively build its sub-collections and
attach them through add_child, and collect the nodes in order.  Object
identities are drawn from `k` upward. -/
def buildTreeItems : List DataTree → Nat → List TNode × Nat
  | [], k => ([], k)
  | DataTree.mk nm cols :: rest, k =>
      let sub := buildTreeItems cols (k + 1)
      let node := sub.1.foldl TNode.add_child (TNode.mk k nm false none [])
      let others := buildTreeItems rest sub.2
      (node :: others.1, others.2)
termination_by l _ => sizeOf l
decreasing_by
  all_goals simp
  all_goals omega

/-- The parent back-reference invariant, recursively: every child of a node
carries that node's identity as parent back-reference, and so on down the
tree. -/
inductive ParentInv : TNode → Prop where
  | node : ∀ (o : Nat) (nm : String) (c : Bool) (p : Option Nat)
      (ch : List TNode),
      (∀ x ∈ ch, x.parentOid = some o) →
      (∀ x ∈ ch, ParentInv x) →
      ParentInv (TNode.mk o nm c p ch)

/-- A parent with children a, b, c whose refresh reports only b. -/
def cexParentNode : TNode :=
  TNode.mk 9 "root" false none
    [TNode.mk 0 "a" false (some 9) [], TNode.mk 1 "b" false (some 9) [],
     TNode.mk 2 "c" false (some 9) []]

/-! ## Lazy file loading (categories.py, CollectionItem.load_files) -/

/-- A file entry of the category data (categories.py FileItem). -/
structure FileItem where
  path : String
  group : Option String
deriving DecidableEq, Repr

/-- The mutable load_files state of one CollectionItem: the files cache
(None before the first successful load) and how many times the loader has
been invoked so far; `calls` indexes into the loader's result sequence. -/
structure LoadFilesState where
  files : Option (List FileItem)
  calls : Nat
deriving DecidableEq, Repr

/-- Python `self.files or []`: None and the empty list both give [], a
non-empty list gives itself. -/
def pyOrEmpty : Option (List FileItem) → List FileItem
  | none => []
  | some l => if l = [] then [] else l

/-- CollectionItem.load_files (categories.py lines 21-24): when a
files_loader exists and (the cache is None, or force is set) the loader is
invoked and its result stored in the cache; the call returns
`self.files or []`.  The loader is an external capability modelled as the
sequence of its return values indexed by invocation count; `none` models a
CollectionItem without a files_loader. -/
def load_files (loader : Option (Nat → List FileItem)) (force : Bool)
    (s : LoadFilesState) : List FileItem × LoadFilesState :=
  let s1 := match loader with
    | some f =>
        if s.files = none ∨ force = true then
          { files := some (f s.calls), calls := s.calls + 1 }
        else s
    | none => s
  (pyOrEmpty s1.files, s1)

/-! ## Helper lemmas and claim theorems -/

theorem pyMem_iff (x : PyVal) (l : List PyVal) : pyMem x l = true ↔ x ∈ l := by
  simp [pyMem, List.any_eq_true]

/-- C3 counterexample: with match mode ALL and a predicate whose accepted
values are {"a","b"}, a candidate whose value set for the key is {"a"} has
non-empty intersection with the accepted values, so the claim says the
predicate is satisfied; the code requires every accepted value to be
present and rejects.  Moreover a presence-only predicate (accepted = [True])
is not satisfied by the code on a candidate that has the key with a string
value, although the claim says key existence suffices. -/
theorem filter_intersection_claim_false :
    filterAcceptsRow [("k", PyValue.listOf [PyVal.vStr "a", PyVal.vStr "b"])]
        FilterMode.all [("k", PyValue.scalar (PyVal.vStr "a"))] = false
    ∧ filterAcceptsSpec [("k", PyValue.listOf [PyVal.vStr "a", PyVal.vStr "b"])]
        FilterMode.all [("k", PyValue.scalar (PyVal.vStr "a"))] = true
    ∧ filterAcceptsRow [("k", PyValue.scalar (PyVal.vBool true))]
        FilterMode.any [("k", PyValue.scalar (PyVal.vStr "v"))] = false
    ∧ filterAcceptsSpec [("k", PyValue.scalar (PyVal.vBool true))]
        FilterMode.any [("k", PyValue.scalar (PyVal.vStr "v"))] = true := by
  refine ⟨rfl, rfl, rfl, rfl⟩

/-- C3 amended: the filter accepts a candidate iff the active filter set is
empty, or — in mode ANY — some predicate has non-empty intersection between
its accepted values and the candidate's value set for its key, or — in mode
ALL — every predicate's accepted-value set is contained in the candidate's
value set for its key.  An absent key contributes the one-element value set
[None]; the presence-only marker True participates as an ordinary value
(it matches only a literal True among the candidate's values, not mere key
existence). -/
theorem filter_accepts_characterisation (active : List (String × PyValue))
    (mode : FilterMode) (tags : List (String × PyValue)) :
    filterAcceptsRow active mode tags = true ↔
      (active = [] ∨
        match mode with
        | .all => ∀ kv ∈ active, ∀ x ∈ normValues kv.2,
            x ∈ normValues (pyGet tags kv.1)
        | .any => ∃ kv ∈ active, ∃ x ∈ normValues kv.2,
            x ∈ normValues (pyGet tags kv.1)) := by
  by_cases h : active = []
  · subst h
    simp [filterAcceptsRow]
  · have hno : active.isEmpty = false := by
      simpa [List.isEmpty_iff] using h
    cases mode with
    | all =>
      simp only [filterAcceptsRow, hno, Bool.false_eq_true, if_false]
      simp [List.all_eq_true, pyMem_iff, h]
    | any =>
      simp only [filterAcceptsRow, hno, Bool.false_eq_true, if_false]
      simp [List.any_eq_true, pyMem_iff, h]

theorem lt_div_succ_mul (a b : Nat) (hb : 0 < b) : a < (a / b + 1) * b := by
  calc a = b * (a / b) + a % b := (Nat.div_add_mod a b).symm
    _ < b * (a / b) + b := Nat.add_lt_add_left (Nat.mod_lt a hb) _
    _ = (a / b + 1) * b := by ring

theorem qsizeScaled_fits (w h sw sh : Nat) :
    (qsizeScaled w h sw sh).1 ≤ sw ∧ (qsizeScaled w h sw sh).2 ≤ sh := by
  unfold qsizeScaled
  by_cases hz : w = 0 ∨ h = 0
  · simp [hz]
  · push_neg at hz
    obtain ⟨hw, hh⟩ := hz
    have hw0 : 0 < w := Nat.pos_of_ne_zero hw
    have hh0 : 0 < h := Nat.pos_of_ne_zero hh
    simp only [hw, hh, or_self, if_false]
    by_cases hb : sh * w / h ≤ sw
    · simp [hb]
    · simp only [hb, if_false]
      constructor
      · exact le_refl sw
      · have hlt : sw + 1 ≤ sh * w / h := Nat.succ_le_of_lt (Nat.lt_of_not_le hb)
        have hle : (sw + 1) * h ≤ sh * w := (Nat.le_div_iff_mul_le hh0).1 hlt
        rw [Nat.succ_mul] at hle
        rw [Nat.div_le_iff_le_mul_add_pred hw0, Nat.mul_comm w sh]
        exact le_trans (le_trans (Nat.le_add_right _ h) hle) (Nat.le_add_right _ (w - 1))

theorem qsizeScaled_aspect (w h sw sh : Nat) (hw : 0 < w) (hh : 0 < h) :
    w * (qsizeScaled w h sw sh).2 ≤ (qsizeScaled w h sw sh).1 * h + h
    ∧ (qsizeScaled w h sw sh).1 * h ≤ w * (qsizeScaled w h sw sh).2 + w := by
  unfold qsizeScaled
  simp only [Nat.pos_iff_ne_zero.1 hw, Nat.pos_iff_ne_zero.1 hh, or_self, if_false]
  by_cases hb : sh * w / h ≤ sw
  · simp only [hb, if_true]
    constructor
    · have hx : sh * w < (sh * w / h + 1) * h := lt_div_succ_mul _ _ hh
      rw [Nat.succ_mul] at hx
      rw [Nat.mul_comm w sh]
      exact le_of_lt hx
    · have hx : sh * w / h * h ≤ sh * w := Nat.div_mul_le_self _ _
      rw [Nat.mul_comm w sh]
      exact le_trans hx (Nat.le_add_right _ w)
  · simp only [hb, if_false]
    constructor
    · have hx : sw * h / w * w ≤ sw * h := Nat.div_mul_le_self _ _
      rw [Nat.mul_comm w (sw * h / w)]
      exact le_trans hx (Nat.le_add_right _ h)
    · have hx : sw * h < (sw * h / w + 1) * w := lt_div_succ_mul _ _ hw
      rw [Nat.succ_mul] at hx
      rw [Nat.mul_comm w (sw * h / w)]
      exact le_of_lt hx

/-- C4 counterexample: a 50 x 25 source decoded with target 100 x 100 is
decoded at 100 x 50 — QSize.scale fits the target box in both directions
and therefore upscales a source smaller than the box, contradicting
"never upscaled beyond the source resolution". -/
theorem regular_decode_upscales :
    loadRegularImageSize 50 25 100 100 = (100, 50)
    ∧ ¬((loadRegularImageSize 50 25 100 100).1 ≤ 50
        ∧ (loadRegularImageSize 50 25 100 100).2 ≤ 25) := by
  decide

/-- C4 amended: with an unset (null) target the image is decoded at native
size; with a set target the decoded image fits within the target box and
preserves the source aspect ratio up to one pixel of integer rounding in
either direction (but may be scaled up as well as down to fit the box); a
400 x 200 source with target 100 x 100 decodes at 100 x 50; the post-hoc
rescale of the async completion handler obeys the same fit bound. -/
theorem regular_decode_scaling (srcW srcH tgtW tgtH : Nat) :
    loadRegularImageSize srcW srcH 0 0 = (srcW, srcH)
    ∧ ((loadRegularImageSize srcW srcH tgtW tgtH).1 ≤ tgtW
          ∧ (loadRegularImageSize srcW srcH tgtW tgtH).2 ≤ tgtH
        ∨ (tgtW = 0 ∧ tgtH = 0))
    ∧ (0 < srcW → 0 < srcH →
        srcW * (loadRegularImageSize srcW srcH tgtW tgtH).2
            ≤ (loadRegularImageSize srcW srcH tgtW tgtH).1 * srcH + srcH
        ∧ (loadRegularImageSize srcW srcH tgtW tgtH).1 * srcH
            ≤ srcW * (loadRegularImageSize srcW srcH tgtW tgtH).2 + srcW)
    ∧ loadRegularImageSize 400 200 100 100 = (100, 50)
    ∧ ((onRegularReadySize srcW srcH tgtW tgtH).1 ≤ tgtW
          ∧ (onRegularReadySize srcW srcH tgtW tgtH).2 ≤ tgtH
        ∨ (tgtW = 0 ∧ tgtH = 0) ∨ (srcW = 0 ∧ srcH = 0)) := by
  refine ⟨by simp [loadRegularImageSize], ?_, ?_, by decide, ?_⟩
  · by_cases ht : tgtW = 0 ∧ tgtH = 0
    · exact Or.inr ht
    · left
      simpa [loadRegularImageSize, ht] using qsizeScaled_fits srcW srcH tgtW tgtH
  · intro hw hh
    by_cases ht : tgtW = 0 ∧ tgtH = 0
    · simp [loadRegularImageSize, ht]
    · simpa [loadRegularImageSize, ht] using qsizeScaled_aspect srcW srcH tgtW tgtH hw hh
  · by_cases ht : (tgtW = 0 ∧ tgtH = 0) ∨ (srcW = 0 ∧ srcH = 0)
    · exact Or.inr ht
    · left
      simpa [onRegularReadySize, ht] using qsizeScaled_fits srcW srcH tgtW tgtH

/-- C6 counterexample: an HDR decode delivering 5 channels makes
hdr_to_qimage raise ValueError('Unknown channels'), and _on_hdr_ready has
no handler, so the failure escapes the decoder boundary as an exception
instead of being recorded as a tagged failure or a failed item state. -/
theorem hdr_decode_failure_escapes :
    onHdrReady 5 = Except.error "Unknown channels"
    ∧ hdrToQImage 5 = Except.error "Unknown channels" := ⟨rfl, rfl⟩

/-- C6 amended: an HDR completion with 3 or 4 channels replaces the item's
image without error, but any other channel count raises
ValueError('Unknown channels') which propagates uncaught past the
completion-handler boundary; the code has no failed item state. -/
theorem hdr_channel_dispatch (c : Nat) :
    (c ≠ 3 → c ≠ 4 → onHdrReady c = Except.error "Unknown channels")
    ∧ onHdrReady 3 = Except.ok (some QImageFmt.rgb888)
    ∧ onHdrReady 4 = Except.ok (some QImageFmt.rgba8888) := by
  refine ⟨?_, rfl, rfl⟩
  intro h3 h4
  simp [onHdrReady, hdrToQImage, h3, h4]

/-- C7 counterexample: for a not-an-image identity (MIME text/plain,
unsupported) run is a silent no-op — it does not fail with
UnsupportedFormat, contradicting the claim's first half — while indeed no
work is submitted to the pool. -/
theorem not_image_is_silent_noop :
    imageLoaderRun ["image/png"] true ⟨"text/plain"⟩ = RunOutcome.noOp
    ∧ imageLoaderRun ["image/png"] true ⟨"text/plain"⟩
        ≠ RunOutcome.failed DecodeErr.unsupportedFormat
    ∧ loadAsyncSubmits ["image/png"] ⟨"text/plain"⟩ = false := by decide

/-- C7 amended: for every identity classified not-an-image, decode returns
silently without surfacing any error value (the item keeps its placeholder)
and never submits any work to the worker pool. -/
theorem not_image_never_submitted (supported : List String) (oiio : Bool)
    (f : FileObj) (h : f.isImageFile supported = false) :
    imageLoaderRun supported oiio f = RunOutcome.noOp
    ∧ loadAsyncSubmits supported f = false := by
  constructor
  · simp [imageLoaderRun, h]
  · exact h

/-- Witness for the C7 amended theorem at a concrete input. -/
theorem not_image_never_submitted_w :
    imageLoaderRun ["image/png"] true ⟨"text/plain"⟩ = RunOutcome.noOp
    ∧ loadAsyncSubmits ["image/png"] ⟨"text/plain"⟩ = false :=
  not_image_never_submitted ["image/png"] true ⟨"text/plain"⟩ (by decide)

theorem thumbInv_initial : ThumbInv initialThumb := by
  refine ⟨rfl, Or.inr ⟨rfl, rfl, rfl⟩, rfl⟩

theorem thumbInv_step (s : ThumbState) (ev : UiEvent) (h : ThumbInv s) :
    ThumbInv (uiStep s ev) := by
  obtain ⟨pd, il, tm, lo, it, ni⟩ := s
  obtain ⟨h1, h2, h3⟩ := h
  cases ev with
  | add p =>
    rcases h2 with ⟨hl, ht⟩ | ⟨hl, ht, hp⟩
    · simp only at hl ht
      subst hl; subst ht
      refine ⟨?_, Or.inl ⟨rfl, rfl⟩, ?_⟩
      · show lo ++ (pd ++ [ni]) = List.range (ni + 1)
        rw [← List.append_assoc, h1, List.range_succ]
      · show (it ++ [(ni, p)]).map Prod.fst = List.range (ni + 1)
        simp only at h3
        simp [h3, List.range_succ]
    · simp only at hl ht hp
      subst hl; subst ht; subst hp
      have h1' : lo = List.range ni := by simpa using h1
      refine ⟨?_, Or.inl ⟨rfl, rfl⟩, ?_⟩
      · show (lo ++ [ni]) ++ [] = List.range (ni + 1)
        simp [h1', List.range_succ]
      · show (it ++ [(ni, p)]).map Prod.fst = List.range (ni + 1)
        simp only at h3
        simp [h3, List.range_succ]
  | timer =>
    rcases h2 with ⟨hl, ht⟩ | ⟨hl, ht, hp⟩
    · simp only at hl ht
      subst hl; subst ht
      cases pd with
      | nil =>
        refine ⟨by simpa [uiStep, loadNextItem] using h1, Or.inr ⟨rfl, rfl, rfl⟩, h3⟩
      | cons i rest =>
        refine ⟨?_, Or.inl ⟨rfl, rfl⟩, h3⟩
        show (lo ++ [i]) ++ rest = List.range ni
        simpa using h1
    · simp only at hl ht hp
      subst hl; subst ht; subst hp
      exact ⟨h1, Or.inr ⟨rfl, rfl, rfl⟩, h3⟩

theorem thumbInv_run (evs : List UiEvent) : ThumbInv (runEvents evs) := by
  suffices h : ∀ s, ThumbInv s → ThumbInv (evs.foldl uiStep s) by
    exact h initialThumb thumbInv_initial
  induction evs with
  | nil => intro s hs; exact hs
  | cons e rest ih =>
    intro s hs
    exact ih (uiStep s e) (thumbInv_step s e hs)

/-- A single event starts at most one load, and only ever appends to the
load log. -/
theorem uiStep_loadOrder (s : ThumbState) (ev : UiEvent) :
    ∃ t, (uiStep s ev).loadOrder = s.loadOrder ++ t ∧ t.length ≤ 1 := by
  cases ev with
  | add p =>
    by_cases hl : s.isLoading
    · exact ⟨[], by simp [uiStep, addCollectionItem, hl], by simp⟩
    · cases hq : s.pending with
      | nil =>
        refine ⟨[s.nextId], ?_, by simp⟩
        simp [uiStep, addCollectionItem, hl, loadNextItem, hq]
      | cons i rest =>
        refine ⟨[i], ?_, by simp⟩
        simp [uiStep, addCollectionItem, hl, loadNextItem, hq]
  | timer =>
    by_cases ht : s.timers = 0
    · exact ⟨[], by simp [uiStep, ht], by simp⟩
    · cases hq : s.pending with
      | nil =>
        exact ⟨[], by simp [uiStep, ht, loadNextItem, hq], by simp⟩
      | cons i rest =>
        refine ⟨[i], ?_, by simp⟩
        simp [uiStep, ht, loadNextItem, hq]

/-- C1: within any interleaving of bulk adds and event-loop callbacks, the
pending queue is consumed FIFO in submission order — the ids whose load has
started, followed by the pending queue, are exactly the creation order, so
every scheduling step removed exactly the then-head; at most one singleShot
callback (the admission of the next job, queued when the previous load step
completed) is ever outstanding, and a single event starts at most one
load. -/
theorem bulk_add_fifo_one_at_a_time (evs : List UiEvent) (ev : UiEvent) :
    (runEvents evs).loadOrder ++ (runEvents evs).pending
        = List.range (runEvents evs).nextId
    ∧ (runEvents evs).timers ≤ 1
    ∧ (∃ t, (runEvents (evs ++ [ev])).loadOrder
          = (runEvents evs).loadOrder ++ t ∧ t.length ≤ 1) := by
  obtain ⟨h1, h2, h3⟩ := thumbInv_run evs
  refine ⟨h1, ?_, ?_⟩
  · rcases h2 with ⟨_, ht⟩ | ⟨_, ht, _⟩ <;> simp [ht]
  · have : runEvents (evs ++ [ev]) = uiStep (runEvents evs) ev := by
      simp [runEvents, List.foldl_append]
    rw [this]
    exact uiStep_loadOrder _ ev

/-- C2 counterexample: two add_collection_item calls for path "p" are
issued while the first "p" job is still pending (it sits in the queue after
the trace [add "a", add "p"]), yet after the queue drains the decoder has
run twice for identity "p" — each submission made its own ThumbnailItem and
its own load; nothing coalesced or rejected the duplicate. -/
theorem duplicate_submission_two_decodes :
    (runEvents [UiEvent.add "a", UiEvent.add "p"]).pending = [1]
    ∧ decodeInvocations
        (runEvents [UiEvent.add "a", UiEvent.add "p", UiEvent.add "p",
          UiEvent.timer, UiEvent.timer, UiEvent.timer]) "p" = 2
    ∧ decodeInvocations
        (runEvents [UiEvent.add "a", UiEvent.add "p", UiEvent.add "p",
          UiEvent.timer, UiEvent.timer, UiEvent.timer]) "p" ≠ 1 := by
  refine ⟨rfl, rfl, by decide⟩

/-- C2 amended: duplicate submissions are neither coalesced nor rejected —
every add_collection_item creates a fresh ThumbnailItem with a fresh
identity (the item log's ids are exactly the creation indices, distinct
even for equal paths) and each such item produces its own Decoder
invocation; what does hold is that each created item is loaded at most once
(the load log never repeats an id), so no two decodes of this pipeline ever
mutate the same ThumbnailItem object. -/
theorem each_item_decoded_at_most_once (evs : List UiEvent) :
    ((runEvents evs).loadOrder).Nodup
    ∧ (runEvents evs).items.map Prod.fst = List.range (runEvents evs).nextId
    ∧ ∀ i, ((runEvents evs).loadOrder).count i ≤ 1 := by
  obtain ⟨h1, _, h3⟩ := thumbInv_run evs
  have hnd : ((runEvents evs).loadOrder ++ (runEvents evs).pending).Nodup := by
    rw [h1]; exact List.nodup_range _
  have hlo : ((runEvents evs).loadOrder).Nodup := hnd.of_append_left
  exact ⟨hlo, h3, fun i => List.nodup_iff_count_le_one.1 hlo i⟩

theorem TNode.setParentOid_oid (c : TNode) (p : Nat) :
    (c.setParentOid p).oid = c.oid := by cases c; rfl

theorem TNode.setParentOid_name (c : TNode) (p : Nat) :
    (c.setParentOid p).name = c.name := by cases c; rfl

theorem TNode.setParentOid_checked (c : TNode) (p : Nat) :
    (c.setParentOid p).checked = c.checked := by cases c; rfl

theorem TNode.setParentOid_children (c : TNode) (p : Nat) :
    (c.setParentOid p).children = c.children := by cases c; rfl

theorem TNode.setParentOid_parentOid (c : TNode) (p : Nat) :
    (c.setParentOid p).parentOid = some p := by cases c; rfl

theorem TNode.withChildren_oid (t : TNode) (ch : List TNode) :
    (t.withChildren ch).oid = t.oid := by cases t; rfl

theorem TNode.withChildren_children (t : TNode) (ch : List TNode) :
    (t.withChildren ch).children = ch := by cases t; rfl

theorem TNode.add_child_oid (t c : TNode) : (t.add_child c).oid = t.oid := by
  cases t; rfl

theorem TNode.add_child_children (t c : TNode) :
    (t.add_child c).children = t.children ++ [c.setParentOid t.oid] := by
  cases t; rfl

theorem foldl_add_child_spec (cs : List TNode) (t : TNode) :
    (cs.foldl TNode.add_child t).children
        = t.children ++ cs.map (fun c => c.setParentOid t.oid)
    ∧ (cs.foldl TNode.add_child t).oid = t.oid := by
  induction cs generalizing t with
  | nil => simp
  | cons c rest ih =>
    obtain ⟨ih1, ih2⟩ := ih (t.add_child c)
    rw [List.foldl_cons]
    refine ⟨?_, by rw [ih2, TNode.add_child_oid]⟩
    rw [ih1, TNode.add_child_children, TNode.add_child_oid]
    simp

theorem removeOne_sublist (cs : List TNode) (o : Nat) :
    (removeOne cs o).1.Sublist cs := by
  induction cs with
  | nil => simp [removeOne]
  | cons c rest ih =>
    by_cases h : c.oid = o
    · rw [show (removeOne (c :: rest) o).1 = rest by simp [removeOne, h]]
      exact List.sublist_cons_self c rest
    · rw [show (removeOne (c :: rest) o).1 = c :: (removeOne rest o).1 by
            simp [removeOne, h]]
      exact List.Sublist.cons₂ c ih

theorem removeOne_eq_filter (cs : List TNode) (o : Nat)
    (hmem : o ∈ cs.map TNode.oid) (hnd : (cs.map TNode.oid).Nodup) :
    (removeOne cs o).1 = cs.filter (fun c => decide (c.oid ≠ o)) := by
  induction cs with
  | nil => cases hmem
  | cons c rest ih =>
    rw [List.map_cons, List.nodup_cons] at hnd
    by_cases h : c.oid = o
    · have hrest : ∀ x ∈ rest, x.oid ≠ o := by
        intro x hx he
        exact hnd.1 (by rw [h]; exact List.mem_map.2 ⟨x, hx, he⟩)
      rw [show (removeOne (c :: rest) o).1 = rest by simp [removeOne, h]]
      rw [List.filter_cons_of_neg (by simp [h])]
      exact (List.filter_eq_self.2 (fun x hx => by simp [hrest x hx])).symm
    · have hmem' : o ∈ rest.map TNode.oid := by
        rw [List.map_cons] at hmem
        rcases List.mem_cons.1 hmem with he | hm
        · exact absurd he.symm h
        · exact hm
      rw [show (removeOne (c :: rest) o).1 = c :: (removeOne rest o).1 by
            simp [removeOne, h]]
      rw [List.filter_cons_of_pos (by simp [h]), ih hmem' hnd.2]

theorem removeLoop_go (rem : List TNode) : ∀ (cs : List TNode) (ns : List Notif),
    (∀ r ∈ rem, r.oid ∈ cs.map TNode.oid) → (cs.map TNode.oid).Nodup →
    (rem.map TNode.oid).Nodup →
    ∃ ms,
      rem.foldl removeStep (cs, ns)
        = (cs.filter (fun c => decide (c.oid ∉ rem.map TNode.oid)), ns ++ ms)
      ∧ ms.length = rem.length
      ∧ ∀ n ∈ ms, ∃ r, n = Notif.removeRows r r := by
  induction rem with
  | nil =>
    intro cs ns _ _ _
    exact ⟨[], by simp, rfl, by simp⟩
  | cons r rest ih =>
    intro cs ns hmem hnd hndr
    rw [List.map_cons, List.nodup_cons] at hndr
    have hrmem : r.oid ∈ cs.map TNode.oid := hmem r (by simp)
    have hstep : (removeOne cs r.oid).1 = cs.filter (fun c => decide (c.oid ≠ r.oid)) :=
      removeOne_eq_filter cs r.oid hrmem hnd
    have hsubl : ((cs.filter (fun c => decide (c.oid ≠ r.oid))).map TNode.oid).Sublist
        (cs.map TNode.oid) := (List.filter_sublist cs).map TNode.oid
    have hnd1 : ((cs.filter (fun c => decide (c.oid ≠ r.oid))).map TNode.oid).Nodup :=
      List.Nodup.sublist hsubl hnd
    have hmem1 : ∀ x ∈ rest,
        x.oid ∈ (cs.filter (fun c => decide (c.oid ≠ r.oid))).map TNode.oid := by
      intro x hx
      obtain ⟨c, hc, hco⟩ := List.mem_map.1 (hmem x (by simp [hx]))
      have hxr : x.oid ≠ r.oid := by
        intro he
        exact hndr.1 (List.mem_map.2 ⟨x, hx, he⟩)
      refine List.mem_map.2 ⟨c, List.mem_filter.2 ⟨hc, by simp [hco, hxr]⟩, hco⟩
    obtain ⟨ms, hfold, hlen, hshape⟩ :=
      ih _ (ns ++ [Notif.removeRows (removeOne cs r.oid).2 (removeOne cs r.oid).2])
        hmem1 hnd1 hndr.2
    refine ⟨Notif.removeRows (removeOne cs r.oid).2 (removeOne cs r.oid).2 :: ms,
      ?_, by simp [hlen], ?_⟩
    · rw [List.foldl_cons]
      have hrs : removeStep (cs, ns) r
          = ((removeOne cs r.oid).1,
             ns ++ [Notif.removeRows (removeOne cs r.oid).2 (removeOne cs r.oid).2]) := rfl
      rw [hrs, hstep, hfold]
      refine congrArg₂ Prod.mk ?_ (by simp)
      rw [List.filter_filter]
      refine List.filter_congr ?_
      intro x hx
      simp [List.mem_cons, not_or, Bool.and_comm, Bool.decide_and]
    · intro n hn
      rcases List.mem_cons.1 hn with rfl | h
      · exact ⟨(removeOne cs r.oid).2, rfl⟩
      · exact hshape n h

theorem mkNewChildren_names (ds : List String) (p k : Nat) :
    (mkNewChildren ds p k).map TNode.name = ds := by
  induction ds generalizing k with
  | nil => rfl
  | cons nm rest ih => simp [mkNewChildren, TNode.name, ih]

theorem mkNewChildren_mem (ds : List String) (p k : Nat) :
    ∀ n ∈ mkNewChildren ds p k,
      n.checked = false ∧ n.children = [] ∧ n.parentOid = some p := by
  induction ds generalizing k with
  | nil => intro n hn; cases hn
  | cons nm rest ih =>
    intro n hn
    rcases List.mem_cons.1 hn with rfl | h
    · exact ⟨rfl, rfl, rfl⟩
    · exact ih (k + 1) n h

theorem removeLoop_reconcile (cs : List TNode) (childrenData : List String)
    (hnd : (cs.map TNode.oid).Nodup) :
    (removeLoop cs (cs.filter (fun c => !(childrenData.contains c.name))).reverse).1
      = cs.filter (fun c => childrenData.contains c.name)
    ∧ (removeLoop cs
        (cs.filter (fun c => !(childrenData.contains c.name))).reverse).2.length
      = (cs.filter (fun c => !(childrenData.contains c.name))).length
    ∧ ∀ n ∈ (removeLoop cs
        (cs.filter (fun c => !(childrenData.contains c.name))).reverse).2,
        ∃ r, n = Notif.removeRows r r := by
  set rem := (cs.filter (fun c => !(childrenData.contains c.name))).reverse with hrem
  have hm : ∀ r ∈ rem, r.oid ∈ cs.map TNode.oid := by
    intro r hr
    rw [hrem, List.mem_reverse] at hr
    exact List.mem_map.2 ⟨r, (List.mem_filter.1 hr).1, rfl⟩
  have hndrem : (rem.map TNode.oid).Nodup := by
    rw [hrem, List.map_reverse, List.nodup_reverse]
    exact List.Nodup.sublist ((List.filter_sublist cs).map TNode.oid) hnd
  obtain ⟨ms, hfold, hlen, hshape⟩ := removeLoop_go rem cs [] hm hnd hndrem
  have hloop : removeLoop cs rem = (cs.filter
      (fun c => decide (c.oid ∉ rem.map TNode.oid)), ms) := by
    rw [removeLoop, hfold]; simp
  have hfix : cs.filter (fun c => decide (c.oid ∉ rem.map TNode.oid))
      = cs.filter (fun c => childrenData.contains c.name) := by
    refine List.filter_congr ?_
    intro x hx
    by_cases hc : childrenData.contains x.name
    · rw [hc]
      apply decide_eq_true
      intro hmem
      obtain ⟨r, hr, hro⟩ := List.mem_map.1 hmem
      rw [hrem, List.mem_reverse] at hr
      obtain ⟨hrcs, hpred⟩ := List.mem_filter.1 hr
      have : r = x := List.inj_on_of_nodup_map hnd hrcs hx hro
      subst this
      simp at hpred
      exact hpred (by simpa using hc)
    · have hcf : childrenData.contains x.name = false := by
        simpa using hc
      rw [hcf]
      apply decide_eq_false
      intro hnot
      refine hnot (List.mem_map.2 ⟨x, ?_, rfl⟩)
      rw [hrem, List.mem_reverse]
      exact List.mem_filter.2 ⟨hx, by simpa using hcf⟩
  refine ⟨by rw [hloop, hfix], ?_, ?_⟩
  · rw [hloop]
    simpa [hrem] using hlen
  · rw [hloop]
    exact hshape

theorem onItemExpanded_result (item : TNode) (childrenData : List String) (k : Nat)
    (hnd : (item.children.map TNode.oid).Nodup) :
    (onItemExpanded item childrenData k).1.children
      = item.children.filter (fun c => childrenData.contains c.name)
        ++ (mkNewChildren (childrenData.filter
              (fun nm => !((item.children.map TNode.name).contains nm))) item.oid k).map
            (fun c => c.setParentOid item.oid)
    ∧ (onItemExpanded item childrenData k).1.oid = item.oid := by
  obtain ⟨hkept, _hlen, _hshape⟩ := removeLoop_reconcile item.children childrenData hnd
  obtain ⟨hch, hoid⟩ := foldl_add_child_spec
    (mkNewChildren (childrenData.filter
      (fun nm => !((item.children.map TNode.name).contains nm))) item.oid k)
    (item.withChildren (removeLoop item.children
      (item.children.filter (fun c => !(childrenData.contains c.name))).reverse).1)
  constructor
  · show ((mkNewChildren (childrenData.filter
        (fun nm => !((item.children.map TNode.name).contains nm))) item.oid k).foldl
          TNode.add_child
          (item.withChildren (removeLoop item.children
            (item.children.filter
              (fun c => !(childrenData.contains c.name))).reverse).1)).children = _
    rw [hch, TNode.withChildren_children, TNode.withChildren_oid, hkept]
  · show ((mkNewChildren (childrenData.filter
        (fun nm => !((item.children.map TNode.name).contains nm))) item.oid k).foldl
          TNode.add_child
          (item.withChildren (removeLoop item.children
            (item.children.filter
              (fun c => !(childrenData.contains c.name))).reverse).1)).oid = _
    rw [hoid, TNode.withChildren_oid]

/-- C5: in one reconciliation pass, the children whose backing identity
(name) is absent from the fresh data are removed; children whose identity
is present in both sets are kept as the very same nodes (same object
identity, same checked state, same subtree — they appear unchanged in the
result); identities present only in the fresh data become new nodes —
unchecked, childless, parented to the reconciled node — appended after the
kept children in the fresh data's order. -/
theorem reconcile_children_diff (item : TNode) (childrenData : List String)
    (k : Nat) (hnd : (item.children.map TNode.oid).Nodup) :
    ∃ newPart,
      (onItemExpanded item childrenData k).1.children
        = item.children.filter (fun c => childrenData.contains c.name) ++ newPart
      ∧ newPart.map TNode.name
          = childrenData.filter
              (fun nm => !((item.children.map TNode.name).contains nm))
      ∧ ∀ n ∈ newPart, n.checked = false ∧ n.children = []
          ∧ n.parentOid = some item.oid := by
  obtain ⟨hch, _⟩ := onItemExpanded_result item childrenData k hnd
  refine ⟨_, hch, ?_, ?_⟩
  · rw [List.map_map]
    have hcomp : (TNode.name ∘ fun c => c.setParentOid item.oid) = TNode.name := by
      funext c; exact TNode.setParentOid_name c item.oid
    rw [hcomp, mkNewChildren_names]
  · intro n hn
    obtain ⟨c, hc, rfl⟩ := List.mem_map.1 hn
    obtain ⟨h1, h2, h3⟩ := mkNewChildren_mem _ item.oid k c hc
    exact ⟨by rw [TNode.setParentOid_checked, h1],
           by rw [TNode.setParentOid_children, h2],
           TNode.setParentOid_parentOid c item.oid⟩

/-- Witness for the C5 theorem: a node with children a (unchecked) and b
(checked), refreshed with fresh data [b, c]. -/
theorem reconcile_children_diff_w :
    ∃ newPart,
      (onItemExpanded
          (TNode.mk 9 "root" false none
            [TNode.mk 0 "a" false (some 9) [], TNode.mk 1 "b" true (some 9) []])
          ["b", "c"] 10).1.children
        = (TNode.mk 9 "root" false none
            [TNode.mk 0 "a" false (some 9) [],
             TNode.mk 1 "b" true (some 9) []]).children.filter
              (fun c => (["b", "c"] : List String).contains c.name) ++ newPart
      ∧ newPart.map TNode.name
          = (["b", "c"] : List String).filter
              (fun nm => !(((TNode.mk 9 "root" false none
                  [TNode.mk 0 "a" false (some 9) [],
                   TNode.mk 1 "b" true (some 9) []]).children.map
                    TNode.name).contains nm))
      ∧ ∀ n ∈ newPart, n.checked = false ∧ n.children = []
          ∧ n.parentOid = some (TNode.mk 9 "root" false none
              [TNode.mk 0 "a" false (some 9) [],
               TNode.mk 1 "b" true (some 9) []]).oid :=
  reconcile_children_diff
    (TNode.mk 9 "root" false none
      [TNode.mk 0 "a" false (some 9) [], TNode.mk 1 "b" true (some 9) []])
    ["b", "c"] 10 (by decide)

/-- C8 counterexample: reconciling children [a, b, c] against fresh data
[b] removes a and c with two separate single-row remove notifications
(rows 2 then 0, in reversed child order) and no insert notification — not
one remove-range notification followed by one insert-range notification. -/
theorem reconcile_two_remove_notifs :
    (onItemExpanded cexParentNode ["b"] 10).2
      = [Notif.removeRows 2 2, Notif.removeRows 0 0]
    ∧ ¬ ∃ a b c d, (onItemExpanded cexParentNode ["b"] 10).2
        = [Notif.removeRows a b, Notif.insertRows c d] := by
  constructor
  · rfl
  · rintro ⟨a, b, c, d, h⟩
    rw [show (onItemExpanded cexParentNode ["b"] 10).2
        = [Notif.removeRows 2 2, Notif.removeRows 0 0] from rfl] at h
    simp at h

/-- C8 amended: a reconciliation pass reports its structural changes as one
single-row remove notification per removed child (all of them first, one
for each child absent from the fresh data), followed by at most one
insert-range notification covering all appended children (none when
nothing is inserted). -/
theorem reconcile_notification_shape (item : TNode) (childrenData : List String)
    (k : Nat) (hnd : (item.children.map TNode.oid).Nodup) :
    ∃ removedNs insertedNs,
      (onItemExpanded item childrenData k).2 = removedNs ++ insertedNs
      ∧ removedNs.length
          = (item.children.filter (fun c => !(childrenData.contains c.name))).length
      ∧ (∀ n ∈ removedNs, ∃ r, n = Notif.removeRows r r)
      ∧ (insertedNs = [] ∨ ∃ a b, insertedNs = [Notif.insertRows a b]) := by
  obtain ⟨_hkept, hlen, hshape⟩ := removeLoop_reconcile item.children childrenData hnd
  refine ⟨(removeLoop item.children (item.children.filter
      (fun c => !(childrenData.contains c.name))).reverse).2,
    (if (mkNewChildren (childrenData.filter
        (fun nm => !((item.children.map TNode.name).contains nm))) item.oid k).isEmpty
      then ([] : List Notif)
      else [Notif.insertRows
        (removeLoop item.children (item.children.filter
          (fun c => !(childrenData.contains c.name))).reverse).1.length
        ((removeLoop item.children (item.children.filter
          (fun c => !(childrenData.contains c.name))).reverse).1.length
          + (mkNewChildren (childrenData.filter
              (fun nm => !((item.children.map TNode.name).contains nm)))
                item.oid k).length - 1)]),
    rfl, hlen, hshape, ?_⟩
  by_cases he : (mkNewChildren (childrenData.filter
      (fun nm => !((item.children.map TNode.name).contains nm))) item.oid k).isEmpty
  · exact Or.inl (by rw [if_pos he])
  · exact Or.inr ⟨_, _, by rw [if_neg he]⟩

/-- Witness for the C8 amended theorem at a concrete input (children a, b;
fresh data [b, c]: one removal, one insertion). -/
theorem reconcile_notification_shape_w :
    ∃ removedNs insertedNs,
      (onItemExpanded
          (TNode.mk 9 "root" false none
            [TNode.mk 0 "a" false (some 9) [], TNode.mk 1 "b" true (some 9) []])
          ["b", "c"] 10).2 = removedNs ++ insertedNs
      ∧ removedNs.length
          = ((TNode.mk 9 "root" false none
              [TNode.mk 0 "a" false (some 9) [],
               TNode.mk 1 "b" true (some 9) []]).children.filter
                (fun c => !((["b", "c"] : List String).contains c.name))).length
      ∧ (∀ n ∈ removedNs, ∃ r, n = Notif.removeRows r r)
      ∧ (insertedNs = [] ∨ ∃ a b, insertedNs = [Notif.insertRows a b]) :=
  reconcile_notification_shape
    (TNode.mk 9 "root" false none
      [TNode.mk 0 "a" false (some 9) [], TNode.mk 1 "b" true (some 9) []])
    ["b", "c"] 10 (by decide)

theorem parentInv_setParentOid {c : TNode} (h : ParentInv c) (p : Nat) :
    ParentInv (c.setParentOid p) := by
  cases h with
  | node o nm cb pp ch h1 h2 => exact ParentInv.node o nm cb (some p) ch h1 h2

theorem parentInv_add_child {t c : TNode} (ht : ParentInv t) (hc : ParentInv c) :
    ParentInv (t.add_child c) := by
  cases ht with
  | node o nm cb pp ch h1 h2 =>
    rw [show (TNode.mk o nm cb pp ch).add_child c
        = TNode.mk o nm cb pp (ch ++ [c.setParentOid o]) from rfl]
    refine ParentInv.node o nm cb pp _ ?_ ?_
    · intro x hx
      rcases List.mem_append.1 hx with hx | hx
      · exact h1 x hx
      · rcases List.mem_singleton.1 hx with rfl
        exact TNode.setParentOid_parentOid c o
    · intro x hx
      rcases List.mem_append.1 hx with hx | hx
      · exact h2 x hx
      · rcases List.mem_singleton.1 hx with rfl
        exact parentInv_setParentOid hc o

theorem parentInv_foldl (cs : List TNode) :
    ∀ (t : TNode), ParentInv t → (∀ c ∈ cs, ParentInv c) →
      ParentInv (cs.foldl TNode.add_child t) := by
  induction cs with
  | nil => intro t ht _; exact ht
  | cons c rest ih =>
    intro t ht hcs
    rw [List.foldl_cons]
    exact ih _ (parentInv_add_child ht (hcs c (by simp)))
      (fun x hx => hcs x (by simp [hx]))

theorem parentInv_mkNewChildren (ds : List String) (p k : Nat) :
    ∀ n ∈ mkNewChildren ds p k, ParentInv n := by
  induction ds generalizing k with
  | nil => intro n hn; cases hn
  | cons nm rest ih =>
    intro n hn
    rcases List.mem_cons.1 hn with rfl | h
    · exact ParentInv.node k nm false (some p) [] (by simp) (by simp)
    · exact ih (k + 1) n h

theorem removeLoop_sublist (rem : List TNode) :
    ∀ (cs : List TNode) (ns : List Notif),
      (rem.foldl removeStep (cs, ns)).1.Sublist cs := by
  induction rem with
  | nil => intro cs ns; exact List.Sublist.refl cs
  | cons r rest ih =>
    intro cs ns
    rw [List.foldl_cons]
    exact List.Sublist.trans
      (ih (removeOne cs r.oid).1
        (ns ++ [Notif.removeRows (removeOne cs r.oid).2 (removeOne cs r.oid).2]))
      (removeOne_sublist cs r.oid)

theorem parentInv_onItemExpanded {item : TNode} (h : ParentInv item)
    (childrenData : List String) (k : Nat) :
    ParentInv (onItemExpanded item childrenData k).1 := by
  cases h with
  | node o nm cb pp ch h1 h2 =>
    have hsub : (removeLoop ch
        (ch.filter (fun c => !(childrenData.contains c.name))).reverse).1.Sublist ch :=
      removeLoop_sublist _ ch []
    have hinv1 : ParentInv ((TNode.mk o nm cb pp ch).withChildren
        (removeLoop ch
          (ch.filter (fun c => !(childrenData.contains c.name))).reverse).1) := by
      refine ParentInv.node o nm cb pp _ ?_ ?_
      · intro x hx; exact h1 x (hsub.subset hx)
      · intro x hx; exact h2 x (hsub.subset hx)
    exact parentInv_foldl _ _ hinv1
      (fun c hc => parentInv_mkNewChildren _ _ _ c hc)

theorem buildTreeItems_nil (k : Nat) : buildTreeItems [] k = ([], k) := by
  simp only [buildTreeItems]

theorem buildTreeItems_cons (nm : String) (cols rest : List DataTree) (k : Nat) :
    buildTreeItems (DataTree.mk nm cols :: rest) k
      = ((buildTreeItems cols (k + 1)).1.foldl TNode.add_child
            (TNode.mk k nm false none [])
          :: (buildTreeItems rest (buildTreeItems cols (k + 1)).2).1,
         (buildTreeItems rest (buildTreeItems cols (k + 1)).2).2) := by
  simp only [buildTreeItems]

theorem buildTreeItems_parentInv_aux :
    ∀ (n : Nat) (ds : List DataTree) (k : Nat), sizeOf ds ≤ n →
      ∀ nd ∈ (buildTreeItems ds k).1, ParentInv nd := by
  intro n
  induction n with
  | zero =>
    intro ds k hle
    cases ds <;> simp at hle
  | succ n ih =>
    intro ds k hle nd hnd
    match ds, hnd with
    | [], hnd =>
      rw [buildTreeItems_nil] at hnd
      cases hnd
    | DataTree.mk nm cols :: rest, hnd =>
      have hsz : sizeOf cols ≤ n ∧ sizeOf rest ≤ n := by
        simp [List.cons.sizeOf_spec, DataTree.mk.sizeOf_spec] at hle
        omega
      rw [buildTreeItems_cons] at hnd
      rcases List.mem_cons.1 hnd with rfl | h
      · refine parentInv_foldl _ _ ?_ ?_
        · exact ParentInv.node k nm false none [] (by simp) (by simp)
        · intro c hc
          exact ih cols (k + 1) hsz.1 c hc
      · exact ih rest _ hsz.2 nd h

/-- C10: every element of a collection node's children list carries that
node's identity as parent back-reference, all the way down the tree.  The
invariant is preserved by add_child, established for the whole forest by
build_tree_items, and preserved by a reconciliation pass (removal keeps a
sublist, retained children are untouched, and new children are created
with — and re-parented by add_child to — the reconciled node). -/
theorem parent_backref_invariant :
    (∀ p c, ParentInv p → ParentInv c → ParentInv (p.add_child c))
    ∧ (∀ (ds : List DataTree) (k : Nat), ∀ nd ∈ (buildTreeItems ds k).1, ParentInv nd)
    ∧ (∀ (item : TNode) (childrenData : List String) (k : Nat),
        ParentInv item → ParentInv (onItemExpanded item childrenData k).1) :=
  ⟨fun _ _ hp hc => parentInv_add_child hp hc,
   fun ds k => buildTreeItems_parentInv_aux (sizeOf ds) ds k (Nat.le_refl _),
   fun _ cd k h => parentInv_onItemExpanded h cd k⟩

theorem pyOrEmpty_some (l : List FileItem) : pyOrEmpty (some l) = l := by
  by_cases h : l = []
  · simp [pyOrEmpty, h]
  · simp [pyOrEmpty, h]

/-- C9: with a files_loader, load_files with force = False invokes the
loader exactly when the cache is None; once the cache holds a list, every
further force = False call returns that very list and changes nothing (no
re-invocation); force = True always re-invokes the loader and replaces the
cache with its fresh result; and the returned value is never None — a
CollectionItem with no loader and no cache returns the empty list. -/
theorem load_files_caching (f : Nat → List FileItem) (s : LoadFilesState) :
    ((load_files (some f) false s).2.calls = s.calls + 1 ↔ s.files = none)
    ∧ (∀ l, s.files = some l → load_files (some f) false s = (l, s))
    ∧ load_files (some f) true s
        = (pyOrEmpty (some (f s.calls)),
           { files := some (f s.calls), calls := s.calls + 1 })
    ∧ (∀ force, (load_files none force s).2 = s)
    ∧ (∀ force n, (load_files none force { files := none, calls := n }).1 = []) := by
  refine ⟨?_, ?_, ?_, fun force => rfl, fun force n => rfl⟩
  · cases hf : s.files with
    | none => simp [load_files, hf]
    | some l =>
      simp [load_files, hf]
  · intro l hl
    simp [load_files, hl, pyOrEmpty_some]
  · simp [load_files]
